import Mathlib

/-!
Verification of `scripts/books/upload-book-image-library.py`.

This file shallowly embeds, in Lean 4, the core operations of the book
image-library upload pipeline: the conversion-policy decision
(`should_convert`, `decide_route`), the adaptive size-budget loop around
`optimize_image` (`size_budget_loop`, `adaptive_convert`), the streaming
TIFF strides (`tiff_step`, `sampled_len`), the retrying upload wrapper
(`storage_upload_with_retries`), the atomic resume-ledger persistence
(`write_json_atomic_states`, `process_file_events`), the per-book driver
loop with resume (`run_files`), the resume-state loader
(`load_resume_state`), and the storage-name sanitizer
(`safe_storage_filename`, including a full SHA-1 implementation for its
truncation branch).

Modelling notes (deviations are deliberate and local):
* Python machine arithmetic is modelled on `Nat`/`Int`.  The three spots
  where the source computes through binary floating point are modelled
  exactly where the float computation is exact (`1.5 ** attempt` capped at
  60, byte-size vs megabyte comparison) and by the exact rational value
  where the float rounding cannot affect any stated property
  (`int(cur_px * 0.85)`, ceiling division in the TIFF strides).
* `str.strip`, `str.lower` and `os.path.splitext` are modelled on ASCII
  (POSIX path rules); all inputs exercised by the claims are ASCII.
-/

/-! ### Streaming TIFF fallback strides (`optimize_tiff_streaming`) -/

/-- Source: `step_y = max(1, int(math.ceil(height / float(max_px))))`,
    modelled with exact ceiling division. -/
def tiff_step (dim maxPx : Nat) : Nat := max 1 ((dim + maxPx - 1) / maxPx)

/-- Number of samples taken by `arr[0:dim:step]`, i.e. `len(range(0, dim, step))`. -/
def sampled_len (dim step : Nat) : Nat := (dim + step - 1) / step

/-! ### Conversion policy (`should_convert` and the preserve/convert branch) -/

def SUPPORTED_PRESERVE_EXTS : List String := ["jpg", "jpeg", "png", "webp", "gif", "svg"]

def CONVERT_FROM_EXTS : List String := ["tif", "tiff", "psd"]

/-- Source: `should_convert(path, max_upload_mb)`.  `statSize = none` models
    `path.stat()` raising.  The source compares `size / (1024*1024) > max_upload_mb`
    in floating point; division by the constant `2**20` is exact, so the
    comparison equals the integer comparison used here. -/
def should_convert (ext : String) (statSize : Option Nat) (maxUploadMb : Nat) : Bool :=
  if ext ∈ CONVERT_FROM_EXTS then true
  else
    match statSize with
    | none => true
    | some sz => decide (maxUploadMb * 1024 * 1024 < sz)

/-- The three ways the driver routes a file (lines 556-616 of the source). -/
inductive Route
  | preserveSvg
  | convert
  | preserveRaw
  deriving DecidableEq

/-- Source, `main` lines 556-575:
    `do_convert = args.convert_all or should_convert(...) or ext not in SUPPORTED_PRESERVE_EXTS`;
    `if ext == "svg" and not do_convert: <preserve verbatim> else: <convert or preserve>`. -/
def decide_route (convertAll : Bool) (ext : String) (statSize : Option Nat)
    (maxUploadMb : Nat) : Route :=
  let doConvert := convertAll || should_convert ext statSize maxUploadMb
      || !(SUPPORTED_PRESERVE_EXTS.contains ext)
  if ext = "svg" && !doConvert then Route.preserveSvg
  else if doConvert then Route.convert
  else Route.preserveRaw

/-! ### Adaptive size-budget loop (`main` lines 576-603) -/

/-- Source: `cur_px = max(800, int(cur_px * 0.85))`.  The float product is
    modelled by the exact value `px * 85 / 100`; every stated property only
    uses the `max 800` floor, which is unaffected by float rounding. -/
def shrink_px (px : Int) : Int := max 800 (px * 85 / 100)

/-- Source: `cur_q = max(65, int(cur_q - 4))`. -/
def shrink_q (q : Int) : Int := max 65 (q - 4)

/-- One run of the `for _ in range(8)` loop.  `attempt px q` models
    `optimize_image(path, max_px=px, jpeg_quality=q, ...)`: `some sz` is a
    successful conversion whose `output_bytes` has length `sz`, `none` is a
    raised exception.  Returns the final value of the Python variable `opt`
    (the last successful attempt, `none` if every attempt raised) together
    with the `(cur_px, cur_q)` parameter pairs actually attempted. -/
def size_budget_loop (attempt : Int → Int → Option Nat) (maxBytes : Nat) :
    Nat → Int → Int → Option Nat → Option Nat × List (Int × Int)
  | 0, _, _, opt => (opt, [])
  | fuel + 1, px, q, opt =>
    match attempt px q with
    | some sz =>
      if sz ≤ maxBytes then (some sz, [(px, q)])
      else
        let r := size_budget_loop attempt maxBytes fuel (shrink_px px) (shrink_q q) (some sz)
        (r.1, (px, q) :: r.2)
    | none =>
      let r := size_budget_loop attempt maxBytes fuel (shrink_px px) (shrink_q q) opt
      (r.1, (px, q) :: r.2)

/-- Outcome of the conversion block: the uploaded body size, or one of the
    two fatal `RuntimeError`s raised after the loop. -/
inductive ConvertOutcome
  | ok (size : Nat)
  | convertFailed
  | stillTooLarge (size : Nat)
  deriving DecidableEq

/-- The whole adaptive block: run the loop with 8 attempts starting from the
    configured `max_px`/`jpeg_quality`; afterwards raise `Failed to convert`
    if `opt` was never set, and `BLOCKED: ... still too large` if the final
    `opt` exceeds `max_bytes`. -/
def adaptive_convert (attempt : Int → Int → Option Nat) (maxBytes : Nat)
    (px q : Int) : ConvertOutcome :=
  match (size_budget_loop attempt maxBytes 8 px q none).1 with
  | none => ConvertOutcome.convertFailed
  | some sz => if maxBytes < sz then ConvertOutcome.stillTooLarge sz else ConvertOutcome.ok sz

/-! ### Upload transport retrier (`storage_upload_with_retries`) -/

/-- Source: `sleep_s = min(60.0, 1.5 ** attempt)`.  `1.5 ** n` is exact in
    binary floating point for every `n` whose value is below the cap, so the
    rational model coincides with the source. -/
def backoff_delay (attempt : Nat) : Rat := min 60 ((3 / 2 : Rat) ^ attempt)

/-- Result of the retry wrapper: total number of transport calls made and
    the sleeps performed between them; `failed e` re-raises the exception of
    the last attempt. -/
inductive UploadRes (ε : Type)
  | success (calls : Nat) (sleeps : List Rat)
  | failed (err : ε) (calls : Nat) (sleeps : List Rat)
  deriving DecidableEq

def UploadRes.calls : UploadRes ε → Nat
  | .success c _ => c
  | .failed _ c _ => c

def UploadRes.sleeps : UploadRes ε → List Rat
  | .success _ s => s
  | .failed _ _ s => s

/-- Record a backoff sleep that happened before the rest of the run. -/
def UploadRes.withSleep (d : Rat) : UploadRes ε → UploadRes ε
  | .success c s => .success c (d :: s)
  | .failed e c s => .failed e c (d :: s)

/-- The `while True` loop of `storage_upload_with_retries`, indexed so that
    the `k`-th transport call (0-based) has outcome `outcome k` (`none` =
    success, `some e` = `requests.RequestException`/`RuntimeError` `e`), and
    `remaining = retries - k` failures are still tolerated.  On failure, the
    Python `attempt` counter equals `k + 1`, and the loop raises when
    `attempt > retries`, i.e. when `remaining = 0`; otherwise it sleeps
    `backoff_delay (k+1)` and retries. -/
def retry_go (outcome : Nat → Option ε) : Nat → Nat → UploadRes ε
  | remaining, k =>
    match outcome k with
    | none => UploadRes.success (k + 1) []
    | some e =>
      match remaining with
      | 0 => UploadRes.failed e (k + 1) []
      | r + 1 => (retry_go outcome r (k + 1)).withSleep (backoff_delay (k + 1))

/-- `storage_upload_with_retries(..., retries)`, abstracted over the
    transport outcomes. -/
def storage_upload_with_retries (outcome : Nat → Option ε) (retries : Nat) : UploadRes ε :=
  retry_go outcome retries 0

/-! ### Resume ledger: atomic persistence and per-file event order -/

/-- Observable per-file events of the non-resume-skip path of `main`
    (lines 648-681): the dry-run `continue`, the upload attempt, the
    fail-fast `sys.exit(1)`, and the ledger persistence
    (`write_json_atomic(state_path, state)`). -/
inductive FileEv
  | uploadAttempt (ok : Bool)
  | fatalExit
  | ledgerPersist
  deriving DecidableEq

/-- Event trace of one file's tail processing: dry-run skips everything;
    otherwise the upload runs first, a failure exits the process, and only a
    success (with resume enabled) is followed by the ledger write. -/
def process_file_events (dryRun resumeEnabled uploadOk : Bool) : List FileEv :=
  if dryRun then []
  else if uploadOk then
    FileEv.uploadAttempt true :: (if resumeEnabled then [FileEv.ledgerPersist] else [])
  else [FileEv.uploadAttempt false, FileEv.fatalExit]

/-- Contents of one path on disk: absent, a torn (partially written) file,
    or a completely written document. -/
inductive FileData (α : Type)
  | absent
  | torn
  | complete (doc : α)
  deriving DecidableEq

/-- The two paths touched by `write_json_atomic`: the final ledger path and
    its `.tmp` sibling. -/
structure LedgerDisk (α : Type) where
  finalFile : FileData α
  tmpFile : FileData α
  deriving DecidableEq

/-- Every disk state reachable while `write_json_atomic(path, obj)` runs,
    including a crash in the middle of `tmp.write_text` (which can tear only
    the tmp file) and after `tmp.replace(path)` (an atomic rename). -/
def write_json_atomic_states (fs : LedgerDisk α) (doc : α) : List (LedgerDisk α) :=
  [fs,
   { fs with tmpFile := FileData.torn },
   { fs with tmpFile := FileData.complete doc },
   { finalFile := FileData.complete doc, tmpFile := FileData.absent }]

/-! ### Resume-state loading (`main` lines 509-518) -/

/-- The per-book resume document `{bookSlug, updatedAt, uploadedByOriginal}`,
    reduced to the mapping actually consulted by the driver. -/
structure StateDoc where
  uploadedByOriginal : List (String × String)
  deriving DecidableEq

def emptyStateDoc : StateDoc := ⟨[]⟩

/-- Log lines the code could print while loading state (it prints none). -/
inductive LogEv
  | warnNote (msg : String)
  | infoNote (msg : String)
  deriving DecidableEq

/-- Source:
    `state = {}` ;
    `if resume_enabled and state_path.exists():` ;
    `  try: state = json.loads(state_path.read_text(...))` ;
    `  except Exception: state = {}`.
    `parsed` is the outcome of `json.loads` on the file's bytes.  The except
    branch recovers silently: no log event is emitted. -/
def load_resume_state (resumeEnabled fileExists : Bool)
    (parsed : Except String StateDoc) : StateDoc × List LogEv :=
  if resumeEnabled && fileExists then
    match parsed with
    | Except.ok st => (st, [])
    | Except.error _ => (emptyStateDoc, [])
  else (emptyStateDoc, [])

/-! ### Per-book driver loop with resume (`main` lines 537-705) -/

/-- Python dict lookup on the `uploadedByOriginal` mapping, modelled as an
    association list where the most recent assignment is first. -/
def lookupEntry (f : String) : List (String × ε) → Option ε
  | [] => none
  | (g, e) :: l => if g = f then some e else lookupEntry f l

/-- Result of processing one book's `files` list: the manifest `entries`
    array, the `srcMap` mapping, the number of per-file asset uploads
    performed, the final `uploadedByOriginal` ledger and the final
    `used_names` state. -/
structure FilesOut (E S : Type) where
  entries : List E
  srcMap : List (String × String)
  assetUploads : Nat
  ledgerOut : List (String × E)
  stOut : S
  deriving DecidableEq

/-- The per-file loop of `main` for a non-dry-run with resume enabled.
    `proc s f` is the whole convert/preserve/unique-name block producing
    file `f`'s manifest entry from the `used_names` state `s`; `getPath e`
    reads `entry["storagePath"]`.  A file found in the ledger is skipped:
    its ledger entry is appended to the manifest and `srcMap`, no upload
    happens and neither state changes.  Otherwise the entry is computed, the
    asset uploaded, and the ledger updated with exactly that entry. -/
def run_files (proc : S → String → E × S) (getPath : E → String) :
    S → List (String × E) → List String → FilesOut E S
  | s, led, [] => ⟨[], [], 0, led, s⟩
  | s, led, f :: fs =>
    match lookupEntry f led with
    | some e =>
      let r := run_files proc getPath s led fs
      ⟨e :: r.entries, (f, getPath e) :: r.srcMap, r.assetUploads, r.ledgerOut, r.stOut⟩
    | none =>
      let pe := proc s f
      let r := run_files proc getPath pe.2 ((f, pe.1) :: led) fs
      ⟨pe.1 :: r.entries, (f, getPath pe.1) :: r.srcMap, r.assetUploads + 1, r.ledgerOut, r.stOut⟩

/-- Total network writes of a non-dry-run book: the per-file asset uploads
    plus the unconditional upload of `images-index.json` (lines 686-704). -/
def network_uploads (r : FilesOut E S) : Nat := r.assetUploads + 1


/-! ### Storage-name sanitizer (`safe_storage_filename`) -/

/-- Python `str.strip()` whitespace (ASCII model). -/
def pyIsSpace (c : Char) : Bool :=
  c = ' ' || c = '\t' || c = '\n' || c = '\x0d' || c = '\x0b' || c = '\x0c'

/-- Strip characters satisfying `p` from both ends, as Python `str.strip`. -/
def dropBoth (p : Char → Bool) (l : List Char) : List Char :=
  ((l.dropWhile p).reverse.dropWhile p).reverse

def pyStrip (l : List Char) : List Char := dropBoth pyIsSpace l

/-- Python `str.rfind`: index of the last occurrence, `-1` if absent. -/
def pyRfind : List Char → Char → Int
  | [], _ => -1
  | a :: l, c =>
    if 0 ≤ pyRfind l c then pyRfind l c + 1
    else if a = c then 0 else -1

/-- `os.path.splitext` (posixpath): split at the last dot that comes after
    the last separator, unless every character between the separator and
    that dot is itself a dot (leading dots do not start an extension). -/
def pySplitext (p : List Char) : List Char × List Char :=
  if pyRfind p '/' < pyRfind p '.' then
    if ((p.drop (pyRfind p '/' + 1).toNat).take
        ((pyRfind p '.').toNat - (pyRfind p '/' + 1).toNat)).any (fun ch => ch != '.') then
      (p.take (pyRfind p '.').toNat, p.drop (pyRfind p '.').toNat)
    else (p, [])
  else (p, [])

/-- The character class `[A-Za-z0-9._-]` of the sanitizer's regex. -/
def isSafeChar (c : Char) : Bool :=
  c.isAlpha || c.isDigit || c = '.' || c = '_' || c = '-'

/-- `re.sub(r"[^A-Za-z0-9._-]+", "_", base)`: each maximal run of
    out-of-class characters becomes a single underscore.  The flag records
    whether the previous character was part of such a run. -/
def subUnsafeAux : Bool → List Char → List Char
  | _, [] => []
  | prevBad, c :: l =>
    if isSafeChar c then c :: subUnsafeAux false l
    else if prevBad then subUnsafeAux true l
    else '_' :: subUnsafeAux true l

/-- `re.sub(r"_+", "_", s)`: collapse runs of underscores.  The flag records
    whether the previous kept character was an underscore. -/
def collapseUnd : Bool → List Char → List Char
  | _, [] => []
  | prevU, c :: l =>
    if c = '_' then
      if prevU then collapseUnd true l else '_' :: collapseUnd true l
    else c :: collapseUnd false l

/-- The separator set of `.strip("._-")`. -/
def isStripChar (c : Char) : Bool := c = '.' || c = '_' || c = '-'

def stripSep (l : List Char) : List Char := dropBoth isStripChar l

/-- Python `str.lower` on one character (ASCII model: maps `A`-`Z`). -/
def pyLower (c : Char) : Char :=
  if c = 'A' then 'a' else if c = 'B' then 'b' else if c = 'C' then 'c'
  else if c = 'D' then 'd' else if c = 'E' then 'e' else if c = 'F' then 'f'
  else if c = 'G' then 'g' else if c = 'H' then 'h' else if c = 'I' then 'i'
  else if c = 'J' then 'j' else if c = 'K' then 'k' else if c = 'L' then 'l'
  else if c = 'M' then 'm' else if c = 'N' then 'n' else if c = 'O' then 'o'
  else if c = 'P' then 'p' else if c = 'Q' then 'q' else if c = 'R' then 'r'
  else if c = 'S' then 's' else if c = 'T' then 't' else if c = 'U' then 'u'
  else if c = 'V' then 'v' else if c = 'W' then 'w' else if c = 'X' then 'x'
  else if c = 'Y' then 'y' else if c = 'Z' then 'z' else c

/-! SHA-1, used by the sanitizer's truncation branch
    (`hashlib.sha1(raw.encode("utf-8", errors="ignore")).hexdigest()[:10]`).
    Words are `Nat` reduced mod `2^32`. -/

def w32 (n : Nat) : Nat := n % 4294967296

/-- Rotate a 32-bit word left by `k` bits (for `n < 2^32`, `0 < k < 32`). -/
def rotl (k n : Nat) : Nat := n % 2 ^ (32 - k) * 2 ^ k + n / 2 ^ (32 - k)

def sha1K (t : Nat) : Nat :=
  if t < 20 then 1518500249
  else if t < 40 then 1859775393
  else if t < 60 then 2400959708
  else 3395469782

def sha1F (t b c d : Nat) : Nat :=
  if t < 20 then b &&& c ||| (b ^^^ 4294967295) &&& d
  else if t < 40 then b ^^^ c ^^^ d
  else if t < 60 then b &&& c ||| b &&& d ||| c &&& d
  else b ^^^ c ^^^ d

/-- Extend the 16 message words to 80; the accumulator is kept reversed so
    that `w[t-3]`, `w[t-8]`, `w[t-14]`, `w[t-16]` sit at indices 2, 7, 13, 15. -/
def sha1Extend : List Nat → Nat → List Nat
  | wsRev, 0 => wsRev
  | wsRev, j + 1 =>
    sha1Extend
      (rotl 1 (wsRev.getD 2 0 ^^^ wsRev.getD 7 0 ^^^ wsRev.getD 13 0 ^^^ wsRev.getD 15 0) :: wsRev)
      j

def sha1Round (st : Nat × Nat × Nat × Nat × Nat) (tw : Nat × Nat) :
    Nat × Nat × Nat × Nat × Nat :=
  match st, tw with
  | (a, b, c, d, e), (t, w) =>
    (w32 (rotl 5 a + sha1F t b c d + e + sha1K t + w), a, rotl 30 b, c, d)

def sha1Block (h : Nat × Nat × Nat × Nat × Nat) (block : List Nat) :
    Nat × Nat × Nat × Nat × Nat :=
  let ws := (sha1Extend block.reverse 64).reverse
  let r := ((List.range 80).zip ws).foldl sha1Round h
  match h, r with
  | (h0, h1, h2, h3, h4), (a, b, c, d, e) =>
    (w32 (h0 + a), w32 (h1 + b), w32 (h2 + c), w32 (h3 + d), w32 (h4 + e))

def sha1Blocks : Nat → (Nat × Nat × Nat × Nat × Nat) → List Nat → Nat × Nat × Nat × Nat × Nat
  | 0, h, _ => h
  | j + 1, h, ws => if ws = [] then h else sha1Blocks j (sha1Block h (ws.take 16)) (ws.drop 16)

/-- `k` big-endian base-256 digits of `n`. -/
def beBytes : Nat → Nat → List Nat
  | 0, _ => []
  | j + 1, n => beBytes j (n / 256) ++ [n % 256]

def bytesToWords : List Nat → List Nat
  | b0 :: b1 :: b2 :: b3 :: rest =>
    (((b0 * 256 + b1) * 256 + b2) * 256 + b3) :: bytesToWords rest
  | _ => []

/-- Merkle-Damgard padding: `0x80`, zeros to 56 mod 64, 8-byte bit length. -/
def sha1Pad (msg : List Nat) : List Nat :=
  msg ++ 128 :: List.replicate ((119 - msg.length % 64) % 64) 0 ++ beBytes 8 (msg.length * 8)

def hexDigit (n : Nat) : Char := "0123456789abcdef".toList.getD n '0'

def sha1HexChars (msg : List Nat) : List Char :=
  let ws := bytesToWords (sha1Pad msg)
  match sha1Blocks ws.length (1732584193, 4023233417, 2562383102, 271733878, 3285377520) ws with
  | (a, b, c, d, e) =>
    [a, b, c, d, e].foldr
      (fun w acc =>
        (beBytes 4 w).foldr (fun b2 acc2 => hexDigit (b2 / 16) :: hexDigit (b2 % 16) :: acc2) acc)
      []

/-- UTF-8 encoding of one scalar value (`raw.encode("utf-8")`). -/
def utf8Bytes (c : Char) : List Nat :=
  let n := c.toNat
  if n < 128 then [n]
  else if n < 2048 then [192 + n / 64, 128 + n % 64]
  else if n < 65536 then [224 + n / 4096, 128 + n / 64 % 64, 128 + n % 64]
  else [240 + n / 262144, 128 + n / 4096 % 64, 128 + n / 64 % 64, 128 + n % 64]

def strBytes (l : List Char) : List Nat := l.foldr (fun c acc => utf8Bytes c ++ acc) []

/-- `hashlib.sha1(s.encode("utf-8", errors="ignore")).hexdigest()[:10]`. -/
def sha1hex10 (l : List Char) : List Char := (sha1HexChars (strBytes l)).take 10

/-- `raw = str(name or "").strip(); if not raw: raw = "file"`. -/
def rawChars (name : List Char) : List Char :=
  if pyStrip name = [] then "file".toList else pyStrip name

/-- The sanitized base:
    `safe_base = re.sub(r"[^A-Za-z0-9._-]+", "_", base)` ;
    `safe_base = re.sub(r"_+", "_", safe_base).strip("._-")` ;
    `if not safe_base: safe_base = "file"`. -/
def sanBase (name : List Char) : List Char :=
  if stripSep (collapseUnd false (subUnsafeAux false (pySplitext (rawChars name)).1)) = []
  then "file".toList
  else stripSep (collapseUnd false (subUnsafeAux false (pySplitext (rawChars name)).1))

/-- `ext = os.path.splitext(raw)[1].lower()`. -/
def extChars (name : List Char) : List Char := ((pySplitext (rawChars name)).2).map pyLower

/-- `max_base = max(16, max_len - len(ext))` (saturating `Nat` subtraction
    agrees with the Python value because of the `max 16` floor). -/
def maxBaseLen (name : List Char) (maxLen : Nat) : Nat :=
  max 16 (maxLen - (extChars name).length)

/-- `safe_storage_filename(name, max_len=180)`: sanitize the base, cap the
    length keeping the extension, and on truncation append `_` plus the
    first 10 hex digits of the SHA-1 of the full original name
    (`keep = max(8, max_base - 11)`). -/
def safe_storage_filename (name : String) (maxLen : Nat := 180) : String :=
  String.mk
    ((if maxBaseLen name.toList maxLen < (sanBase name.toList).length then
        (sanBase name.toList).take (max 8 (maxBaseLen name.toList maxLen - 11)) ++
          '_' :: sha1hex10 (rawChars name.toList)
      else sanBase name.toList) ++ extChars name.toList)

/-- No two adjacent underscores (the post-condition of `collapseUnd`). -/
def noDubB : List Char → Bool
  | [] => true
  | [_] => true
  | a :: b :: l => !(a = '_' && b = '_') && noDubB (b :: l)

/-! ## Theorems -/

/-! ### C9: streaming TIFF strides -/

theorem tiff_sample_le (d m : Nat) (hm : 1 ≤ m) :
    sampled_len d (tiff_step d m) ≤ m := by
  unfold sampled_len tiff_step
  set c := (d + m - 1) / m with hc
  have hdc : d ≤ m * c := by
    have h1 : d + m - 1 = m * c + (d + m - 1) % m := (Nat.div_add_mod _ _).symm
    have h2 : (d + m - 1) % m < m := Nat.mod_lt _ hm
    omega
  set s := max 1 c with hs
  have hs1 : 1 ≤ s := le_max_left _ _
  have hcs : c ≤ s := le_max_right _ _
  have hds : d ≤ s * m := by
    calc d ≤ m * c := hdc
    _ ≤ m * s := Nat.mul_le_mul_left _ hcs
    _ = s * m := Nat.mul_comm _ _
  have hsm : s * (m + 1) = s * m + s := by ring
  have hdiv : (d + s - 1) / s < m + 1 := by
    rw [Nat.div_lt_iff_lt_mul (Nat.lt_of_lt_of_le Nat.zero_lt_one hs1)]
    calc d + s - 1 < s * (m + 1) := by omega
    _ = (m + 1) * s := Nat.mul_comm _ _
  omega

/-- C9: in the streaming TIFF fallback, for any source height, width ≥ 1 and
    maximum output dimension ≥ 1, both strides are ≥ 1 and sampling every
    stride-th row/column yields at most `max_px` rows and columns. -/
theorem tiff_strides_bound (height width maxPx : Nat)
    (hh : 1 ≤ height) (hw : 1 ≤ width) (hm : 1 ≤ maxPx) :
    1 ≤ tiff_step height maxPx ∧ 1 ≤ tiff_step width maxPx ∧
    sampled_len height (tiff_step height maxPx) ≤ maxPx ∧
    sampled_len width (tiff_step width maxPx) ≤ maxPx :=
  ⟨le_max_left _ _, le_max_left _ _, tiff_sample_le _ _ hm, tiff_sample_le _ _ hm⟩

theorem tiff_strides_bound_witness :
    1 ≤ tiff_step 5000 3000 ∧ 1 ≤ tiff_step 3000 3000 ∧
    sampled_len 5000 (tiff_step 5000 3000) ≤ 3000 ∧
    sampled_len 3000 (tiff_step 3000 3000) ≤ 3000 :=
  tiff_strides_bound 5000 3000 3000 (by decide) (by decide) (by decide)

/-! ### C4: SVG routing under `--convert-all` -/

/-- C4 (code bug): the claim says an `.svg` file is always preserved
    verbatim, and the `--convert-all` help text says conversion is forced
    only for non-SVG images; but with `--convert-all` (or an SVG above the
    size ceiling) `do_convert` is true and the `ext == "svg" and not
    do_convert` guard fails, so the SVG is routed into `optimize_image`.
    The last conjunct shows the preserve branch is taken only in the
    unforced, small-file case. -/
theorem svg_routed_to_optimizer_under_convert_all :
    decide_route true "svg" (some 1000) 40 = Route.convert ∧
    decide_route false "svg" (some (41 * 1024 * 1024)) 40 = Route.convert ∧
    decide_route false "svg" (some 1000) 40 = Route.preserveSvg := by
  decide

/-! ### C8: corrupt resume ledger handling -/

/-- C8 (counterexample to the logging clause): loading a corrupt ledger
    emits no log events at all, in particular no warning-level note. -/
theorem corrupt_ledger_logs_nothing :
    (load_resume_state true true (Except.error "Expecting value: line 1 column 1")).2 = [] := by
  decide

/-- C8 (amended): when the ledger file exists but `json.loads` fails, the
    run never aborts: the state is the empty document (disabling resume for
    this run) and nothing is logged. -/
theorem corrupt_ledger_recovered (e : String) :
    load_resume_state true true (Except.error e) = (emptyStateDoc, []) := rfl

/-! ### C2: ledger written only after upload success, atomically -/

/-- C2: a ledger persistence event only happens when the upload succeeded,
    and then only after the successful upload attempt; and every disk state
    reachable during `write_json_atomic` holds either the old final-path
    content or the complete new document at the final path — never a torn
    final file. -/
theorem ledger_persist_after_success (dryRun resumeEnabled uploadOk : Bool)
    (fs : LedgerDisk α) (doc : α) :
    (FileEv.ledgerPersist ∈ process_file_events dryRun resumeEnabled uploadOk →
      uploadOk = true ∧
      (process_file_events dryRun resumeEnabled uploadOk).head? =
        some (FileEv.uploadAttempt true)) ∧
    (∀ s ∈ write_json_atomic_states fs doc,
      s.finalFile = fs.finalFile ∨ s.finalFile = FileData.complete doc) := by
  constructor
  · intro hmem
    unfold process_file_events at *
    rcases dryRun with _ | _ <;> rcases uploadOk with _ | _ <;>
      rcases resumeEnabled with _ | _ <;> simp_all
  · intro s hs
    unfold write_json_atomic_states at hs
    fin_cases hs <;> simp

theorem ledger_persist_after_success_witness :
    (true = true ∧
      (process_file_events false true true).head? = some (FileEv.uploadAttempt true)) ∧
    (∀ s ∈ write_json_atomic_states (⟨FileData.absent, FileData.absent⟩ : LedgerDisk Nat) 7,
      s.finalFile = FileData.absent ∨ s.finalFile = FileData.complete 7) :=
  ⟨(ledger_persist_after_success false true true
      (⟨FileData.absent, FileData.absent⟩ : LedgerDisk Nat) 7).1 (by decide),
   (ledger_persist_after_success false true true
      (⟨FileData.absent, FileData.absent⟩ : LedgerDisk Nat) 7).2⟩

/-! ### C1: the adaptive loop never yields a body above the ceiling -/

theorem size_budget_loop_zero (attempt : Int → Int → Option Nat) (maxBytes : Nat)
    (px q : Int) (opt : Option Nat) :
    size_budget_loop attempt maxBytes 0 px q opt = (opt, []) := rfl

theorem size_budget_loop_succ_ok (attempt : Int → Int → Option Nat) (maxBytes : Nat)
    (fuel : Nat) (px q : Int) (opt : Option Nat) (sz : Nat)
    (h : attempt px q = some sz) (hle : sz ≤ maxBytes) :
    size_budget_loop attempt maxBytes (fuel + 1) px q opt = (some sz, [(px, q)]) := by
  unfold size_budget_loop
  rw [h]
  simp [hle]

theorem size_budget_loop_succ_large (attempt : Int → Int → Option Nat) (maxBytes : Nat)
    (fuel : Nat) (px q : Int) (opt : Option Nat) (sz : Nat)
    (h : attempt px q = some sz) (hle : ¬sz ≤ maxBytes) :
    size_budget_loop attempt maxBytes (fuel + 1) px q opt =
      ((size_budget_loop attempt maxBytes fuel (shrink_px px) (shrink_q q) (some sz)).1,
       (px, q) :: (size_budget_loop attempt maxBytes fuel (shrink_px px) (shrink_q q) (some sz)).2) := by
  conv_lhs => unfold size_budget_loop
  rw [h]
  simp [hle]

theorem size_budget_loop_succ_err (attempt : Int → Int → Option Nat) (maxBytes : Nat)
    (fuel : Nat) (px q : Int) (opt : Option Nat)
    (h : attempt px q = none) :
    size_budget_loop attempt maxBytes (fuel + 1) px q opt =
      ((size_budget_loop attempt maxBytes fuel (shrink_px px) (shrink_q q) opt).1,
       (px, q) :: (size_budget_loop attempt maxBytes fuel (shrink_px px) (shrink_q q) opt).2) := by
  conv_lhs => unfold size_budget_loop
  rw [h]

/-- Any size returned by the loop comes from some successful `optimize_image`
    attempt (it is the Python variable `opt`, only ever assigned from a
    successful call). -/
theorem size_budget_loop_from_attempt (attempt : Int → Int → Option Nat) (maxBytes : Nat) :
    ∀ (fuel : Nat) (px q : Int) (opt : Option Nat),
      (∀ s, opt = some s → ∃ a b, attempt a b = some s) →
      ∀ s, (size_budget_loop attempt maxBytes fuel px q opt).1 = some s →
        ∃ a b, attempt a b = some s := by
  intro fuel
  induction fuel with
  | zero => intro px q opt hopt s hs; exact hopt s hs
  | succ n ih =>
    intro px q opt hopt s hs
    cases hatt : attempt px q with
    | some sz =>
      by_cases hle : sz ≤ maxBytes
      · rw [size_budget_loop_succ_ok attempt maxBytes n px q opt sz hatt hle] at hs
        exact ⟨px, q, by rw [hatt, Option.some.inj hs]⟩
      · rw [size_budget_loop_succ_large attempt maxBytes n px q opt sz hatt hle] at hs
        exact ih _ _ (some sz)
          (fun t ht => ⟨px, q, by rw [hatt, Option.some.inj ht]⟩) s hs
    | none =>
      rw [size_budget_loop_succ_err attempt maxBytes n px q opt hatt] at hs
      exact ih _ _ opt hopt s hs

/-- The loop makes at most `fuel` optimization attempts. -/
theorem size_budget_loop_attempts_le (attempt : Int → Int → Option Nat) (maxBytes : Nat) :
    ∀ (fuel : Nat) (px q : Int) (opt : Option Nat),
      (size_budget_loop attempt maxBytes fuel px q opt).2.length ≤ fuel := by
  intro fuel
  induction fuel with
  | zero => intro px q opt; rw [size_budget_loop_zero]; exact Nat.le_refl _
  | succ n ih =>
    intro px q opt
    cases hatt : attempt px q with
    | some sz =>
      by_cases hle : sz ≤ maxBytes
      · rw [size_budget_loop_succ_ok attempt maxBytes n px q opt sz hatt hle]
        simp
      · rw [size_budget_loop_succ_large attempt maxBytes n px q opt sz hatt hle]
        simpa using Nat.succ_le_succ (ih _ _ _)
    | none =>
      rw [size_budget_loop_succ_err attempt maxBytes n px q opt hatt]
      simpa using Nat.succ_le_succ (ih _ _ _)

/-- C1: the adaptive size-budget loop makes at most 8 optimization attempts,
    and whenever the conversion block yields a body for upload, that body's
    byte length is within the ceiling and was produced by some attempt; an
    over-ceiling or never-produced result raises instead of being uploaded. -/
theorem adaptive_convert_within_ceiling (attempt : Int → Int → Option Nat)
    (maxBytes : Nat) (px q : Int) (sz : Nat)
    (h : adaptive_convert attempt maxBytes px q = ConvertOutcome.ok sz) :
    sz ≤ maxBytes ∧
    (size_budget_loop attempt maxBytes 8 px q none).2.length ≤ 8 ∧
    ∃ a b, attempt a b = some sz := by
  unfold adaptive_convert at h
  cases hres : (size_budget_loop attempt maxBytes 8 px q none).1 with
  | none => rw [hres] at h; simp at h
  | some t =>
    rw [hres] at h
    by_cases hgt : maxBytes < t
    · simp [hgt] at h
    · simp only [hgt, if_false] at h
      have hts : t = sz := by simpa using h
      subst hts
      exact ⟨by omega, size_budget_loop_attempts_le _ _ _ _ _ _,
        size_budget_loop_from_attempt attempt maxBytes 8 px q none (by simp) t hres⟩

theorem adaptive_convert_within_ceiling_witness :
    5 ≤ 10 ∧
    (size_budget_loop (fun _ _ => some 5) 10 8 3000 85 none).2.length ≤ 8 ∧
    ∃ a b, (fun (_ _ : Int) => some 5) a b = some 5 :=
  adaptive_convert_within_ceiling (fun _ _ => some 5) 10 3000 85 5 (by decide)

/-! ### C10: parameter floors on retry attempts -/

theorem shrink_px_ge (px : Int) : 800 ≤ shrink_px px := le_max_left _ _

theorem shrink_q_ge (q : Int) : 65 ≤ shrink_q q := le_max_left _ _

/-- All attempted parameter pairs are floored once the start is floored. -/
theorem size_budget_loop_params_floored (attempt : Int → Int → Option Nat) (maxBytes : Nat) :
    ∀ (fuel : Nat) (px q : Int) (opt : Option Nat),
      800 ≤ px → 65 ≤ q →
      ∀ pr ∈ (size_budget_loop attempt maxBytes fuel px q opt).2,
        800 ≤ pr.1 ∧ 65 ≤ pr.2 := by
  intro fuel
  induction fuel with
  | zero =>
    intro px q opt _ _ pr hpr
    rw [size_budget_loop_zero] at hpr
    simp at hpr
  | succ n ih =>
    intro px q opt hpx hq pr hpr
    cases hatt : attempt px q with
    | some sz =>
      by_cases hle : sz ≤ maxBytes
      · rw [size_budget_loop_succ_ok attempt maxBytes n px q opt sz hatt hle] at hpr
        simp only [List.mem_singleton] at hpr
        subst hpr; exact ⟨hpx, hq⟩
      · rw [size_budget_loop_succ_large attempt maxBytes n px q opt sz hatt hle] at hpr
        rcases List.mem_cons.mp hpr with hpr | hpr
        · subst hpr; exact ⟨hpx, hq⟩
        · exact ih _ _ _ (shrink_px_ge px) (shrink_q_ge q) pr hpr
    | none =>
      rw [size_budget_loop_succ_err attempt maxBytes n px q opt hatt] at hpr
      rcases List.mem_cons.mp hpr with hpr | hpr
      · subst hpr; exact ⟨hpx, hq⟩
      · exact ih _ _ _ (shrink_px_ge px) (shrink_q_ge q) pr hpr

/-- The attempts after the first all belong to a loop run started from
    shrunk parameters. -/
theorem size_budget_loop_tail_shrunk (attempt : Int → Int → Option Nat) (maxBytes : Nat)
    (fuel : Nat) (px q : Int) (opt : Option Nat) :
    (size_budget_loop attempt maxBytes (fuel + 1) px q opt).2.tail = [] ∨
    ∃ opt2, (size_budget_loop attempt maxBytes (fuel + 1) px q opt).2.tail =
      (size_budget_loop attempt maxBytes fuel (shrink_px px) (shrink_q q) opt2).2 := by
  cases hatt : attempt px q with
  | some sz =>
    by_cases hle : sz ≤ maxBytes
    · left
      rw [size_budget_loop_succ_ok attempt maxBytes fuel px q opt sz hatt hle]
      rfl
    · right
      exact ⟨some sz, by
        rw [size_budget_loop_succ_large attempt maxBytes fuel px q opt sz hatt hle]
        rfl⟩
  | none =>
    right
    exact ⟨opt, by
      rw [size_budget_loop_succ_err attempt maxBytes fuel px q opt hatt]
      rfl⟩

/-- C10: every retry attempt of the adaptive loop after the first uses a
    pixel dimension of at least 800 and a JPEG quality of at least 65; and
    when the configured quality is below 65 the first shrink step raises the
    quality to exactly 65, strictly above the configured value. -/
theorem retry_params_floors (attempt : Int → Int → Option Nat) (maxBytes : Nat)
    (px q : Int) :
    (∀ pr ∈ ((size_budget_loop attempt maxBytes 8 px q none).2).tail,
      800 ≤ pr.1 ∧ 65 ≤ pr.2) ∧
    (q < 65 → shrink_q q = 65 ∧ q < shrink_q q) := by
  constructor
  · intro pr hpr
    rcases size_budget_loop_tail_shrunk attempt maxBytes 7 px q none with h | ⟨opt2, h⟩
    · rw [h] at hpr; simp at hpr
    · rw [h] at hpr
      exact size_budget_loop_params_floored attempt maxBytes 7 _ _ _
        (shrink_px_ge px) (shrink_q_ge q) pr hpr
  · intro hlt
    have h65 : shrink_q q = 65 := max_eq_left (by omega)
    exact ⟨h65, by omega⟩

theorem retry_params_floors_witness :
    (∀ pr ∈ ((size_budget_loop (fun _ _ => none) 10 8 3000 50 none).2).tail,
      800 ≤ pr.1 ∧ 65 ≤ pr.2) ∧
    (shrink_q 50 = 65 ∧ (50 : Int) < shrink_q 50) :=
  ⟨(retry_params_floors (fun _ _ => none) 10 3000 50).1,
   (retry_params_floors (fun _ _ => none) 10 3000 50).2 (by decide)⟩

/-! ### C7: the retrier makes at most `retries + 1` attempts with capped
    exponential backoff and propagates the last failure -/

theorem withSleep_calls (d : Rat) (u : UploadRes ε) : (u.withSleep d).calls = u.calls := by
  cases u <;> rfl

theorem withSleep_sleeps (d : Rat) (u : UploadRes ε) :
    (u.withSleep d).sleeps = d :: u.sleeps := by
  cases u <;> rfl

theorem withSleep_failed (d : Rat) (u : UploadRes ε) (e : ε) (c : Nat) (s : List Rat)
    (h : u.withSleep d = UploadRes.failed e c s) :
    ∃ s', u = UploadRes.failed e c s' ∧ s = d :: s' := by
  cases u with
  | success c' s' => exact absurd h (by simp [UploadRes.withSleep])
  | failed e' c' s' =>
    simp only [UploadRes.withSleep] at h
    obtain ⟨he, hc, hs⟩ := by simpa using h
    exact ⟨s', by rw [he, hc], hs.symm⟩

theorem retry_go_ok (outcome : Nat → Option ε) (r k : Nat) (h : outcome k = none) :
    retry_go outcome r k = UploadRes.success (k + 1) [] := by
  cases r <;> · unfold retry_go; rw [h]

theorem retry_go_exhausted (outcome : Nat → Option ε) (k : Nat) (e : ε)
    (h : outcome k = some e) :
    retry_go outcome 0 k = UploadRes.failed e (k + 1) [] := by
  unfold retry_go; rw [h]

theorem retry_go_retry (outcome : Nat → Option ε) (r k : Nat) (e : ε)
    (h : outcome k = some e) :
    retry_go outcome (r + 1) k = (retry_go outcome r (k + 1)).withSleep (backoff_delay (k + 1)) := by
  conv_lhs => unfold retry_go
  rw [h]

/-- Full characterisation of the retry loop started at call index `k` with
    `r` tolerated failures remaining. -/
theorem retry_go_spec (outcome : Nat → Option ε) :
    ∀ (r k : Nat),
      k + 1 ≤ (retry_go outcome r k).calls ∧
      (retry_go outcome r k).calls ≤ k + r + 1 ∧
      (retry_go outcome r k).sleeps =
        (List.range ((retry_go outcome r k).calls - (k + 1))).map
          (fun i => backoff_delay (k + 1 + i)) ∧
      (∀ e c s, retry_go outcome r k = UploadRes.failed e c s →
        c = k + r + 1 ∧ outcome (k + r) = some e) := by
  intro r
  induction r with
  | zero =>
    intro k
    cases hout : outcome k with
    | none =>
      rw [retry_go_ok outcome 0 k hout]
      refine ⟨by simp [UploadRes.calls], by simp [UploadRes.calls], by simp [UploadRes.calls, UploadRes.sleeps], ?_⟩
      intro e c s h
      exact absurd h (by simp)
    | some e =>
      rw [retry_go_exhausted outcome k e hout]
      refine ⟨by simp [UploadRes.calls], by simp [UploadRes.calls], by simp [UploadRes.calls, UploadRes.sleeps], ?_⟩
      intro e' c s h
      obtain ⟨he, hc, -⟩ := by simpa using h
      exact ⟨by omega, by rw [← he]; simpa using hout⟩
  | succ n ih =>
    intro k
    cases hout : outcome k with
    | none =>
      rw [retry_go_ok outcome (n + 1) k hout]
      refine ⟨by simp [UploadRes.calls], by simp [UploadRes.calls], by simp [UploadRes.calls, UploadRes.sleeps], ?_⟩
      intro e c s h
      exact absurd h (by simp)
    | some e =>
      rw [retry_go_retry outcome n k e hout]
      obtain ⟨ih1, ih2, ih3, ih4⟩ := ih (k + 1)
      refine ⟨?_, ?_, ?_, ?_⟩
      · rw [withSleep_calls]; omega
      · rw [withSleep_calls]; omega
      · rw [withSleep_calls, withSleep_sleeps, ih3]
        have hcsub : (retry_go outcome n (k + 1)).calls - (k + 1) =
            ((retry_go outcome n (k + 1)).calls - (k + 2)) + 1 := by omega
        rw [hcsub, List.range_succ_eq_map, List.map_cons, List.map_map]
        refine congr_arg₂ List.cons (by norm_num) ?_
        apply List.map_congr_left
        intro i _
        simp only [Function.comp_apply]
        congr 1
        omega
      · intro e' c s h
        obtain ⟨s', hu, -⟩ := withSleep_failed _ _ _ _ _ h
        obtain ⟨hc, hout'⟩ := ih4 e' c s' hu
        exact ⟨by omega, by rw [show k + (n + 1) = k + 1 + n by omega]; exact hout'⟩

/-- C7: over any sequence of transport outcomes, the retrier makes at most
    `retries + 1` calls; between consecutive calls it sleeps exactly
    `min 60 (1.5 ^ attempt)` seconds for attempt numbers 1, 2, ...; and when
    it gives up it re-raises the error of the last (number `retries + 1`)
    attempt. -/
theorem retrier_bounded_backoff (outcome : Nat → Option ε) (retries : Nat) :
    (storage_upload_with_retries outcome retries).calls ≤ retries + 1 ∧
    (storage_upload_with_retries outcome retries).sleeps =
      (List.range ((storage_upload_with_retries outcome retries).calls - 1)).map
        (fun i => backoff_delay (i + 1)) ∧
    (∀ e c s, storage_upload_with_retries outcome retries = UploadRes.failed e c s →
      c = retries + 1 ∧ outcome retries = some e) := by
  obtain ⟨h1, h2, h3, h4⟩ := retry_go_spec outcome retries 0
  refine ⟨by simpa using h2, ?_, ?_⟩
  · unfold storage_upload_with_retries
    rw [h3]
    apply List.map_congr_left
    intro i _
    congr 1
    omega
  · intro e c s h
    obtain ⟨hc, hout⟩ := h4 e c s h
    exact ⟨by omega, by simpa using hout⟩

theorem retrier_bounded_backoff_witness :
    ((storage_upload_with_retries (fun _ => some 0) 0).calls ≤ 0 + 1 ∧
      1 = 0 + 1 ∧ (some 0 : Option Nat) = some 0) :=
  ⟨(retrier_bounded_backoff (fun _ => some (0 : Nat)) 0).1,
   (retrier_bounded_backoff (fun _ => some (0 : Nat)) 0).2.2 0 1 [] (by decide)⟩

/-! ### C5: re-running with a complete ledger -/

theorem run_files_nil (proc : S → String → E × S) (getPath : E → String)
    (s : S) (led : List (String × E)) :
    run_files proc getPath s led [] = ⟨[], [], 0, led, s⟩ := rfl

theorem run_files_cons_hit (proc : S → String → E × S) (getPath : E → String)
    (s : S) (led : List (String × E)) (f : String) (fs : List String) (e : E)
    (h : lookupEntry f led = some e) :
    run_files proc getPath s led (f :: fs) =
      ⟨e :: (run_files proc getPath s led fs).entries,
       (f, getPath e) :: (run_files proc getPath s led fs).srcMap,
       (run_files proc getPath s led fs).assetUploads,
       (run_files proc getPath s led fs).ledgerOut,
       (run_files proc getPath s led fs).stOut⟩ := by
  conv_lhs => unfold run_files
  rw [h]

theorem run_files_cons_miss (proc : S → String → E × S) (getPath : E → String)
    (s : S) (led : List (String × E)) (f : String) (fs : List String)
    (h : lookupEntry f led = none) :
    run_files proc getPath s led (f :: fs) =
      ⟨(proc s f).1 :: (run_files proc getPath (proc s f).2 ((f, (proc s f).1) :: led) fs).entries,
       (f, getPath (proc s f).1) ::
         (run_files proc getPath (proc s f).2 ((f, (proc s f).1) :: led) fs).srcMap,
       (run_files proc getPath (proc s f).2 ((f, (proc s f).1) :: led) fs).assetUploads + 1,
       (run_files proc getPath (proc s f).2 ((f, (proc s f).1) :: led) fs).ledgerOut,
       (run_files proc getPath (proc s f).2 ((f, (proc s f).1) :: led) fs).stOut⟩ := by
  conv_lhs => unfold run_files
  rw [h]

/-- Processing never removes or changes an existing ledger binding: a file
    already present in the ledger is skipped, and new insertions are for
    keys that were absent. -/
theorem run_files_ledger_preserve (proc : S → String → E × S) (getPath : E → String) :
    ∀ (files : List String) (s : S) (led : List (String × E)) (g : String) (x : E),
      lookupEntry g led = some x →
      lookupEntry g (run_files proc getPath s led files).ledgerOut = some x := by
  intro files
  induction files with
  | nil => intro s led g x hg; rw [run_files_nil]; exact hg
  | cons f fs ih =>
    intro s led g x hg
    cases hf : lookupEntry f led with
    | some e =>
      rw [run_files_cons_hit proc getPath s led f fs e hf]
      exact ih s led g x hg
    | none =>
      rw [run_files_cons_miss proc getPath s led f fs hf]
      have hfg : f ≠ g := fun hEq => by rw [hEq, hg] at hf; exact Option.noConfusion hf
      apply ih
      unfold lookupEntry
      rw [if_neg hfg]
      exact hg

/-- Core resume lemma: if every file in `files` is fresh in `led`, then
    re-running over the ledger produced by a first run skips every file,
    performs no asset uploads, and reproduces the same entries and srcMap. -/
theorem run_files_resume (proc : S → String → E × S) (getPath : E → String) :
    ∀ (files : List String), files.Nodup →
      ∀ (s : S) (led : List (String × E)) (s1 : S),
        (∀ f ∈ files, lookupEntry f led = none) →
        (run_files proc getPath s1 (run_files proc getPath s led files).ledgerOut files).assetUploads = 0 ∧
        (run_files proc getPath s1 (run_files proc getPath s led files).ledgerOut files).entries =
          (run_files proc getPath s led files).entries ∧
        (run_files proc getPath s1 (run_files proc getPath s led files).ledgerOut files).srcMap =
          (run_files proc getPath s led files).srcMap := by
  intro files
  induction files with
  | nil =>
    intro _ s led s1 _
    rw [run_files_nil]
    exact ⟨rfl, rfl, rfl⟩
  | cons f fs ih =>
    intro hnd s led s1 hfresh
    have hf : lookupEntry f led = none := hfresh f (List.mem_cons_self f fs)
    have hnd' : fs.Nodup := (List.nodup_cons.mp hnd).2
    have hfnotin : f ∉ fs := (List.nodup_cons.mp hnd).1
    rw [run_files_cons_miss proc getPath s led f fs hf]
    set e := (proc s f).1 with he
    set s2 := (proc s f).2 with hs2
    set led1 : List (String × E) := (f, e) :: led with hled1
    have hfresh1 : ∀ g ∈ fs, lookupEntry g led1 = none := by
      intro g hg
      have hgf : f ≠ g := fun hEq => hfnotin (hEq ▸ hg)
      unfold lookupEntry
      rw [if_neg hgf]
      exact hfresh g (List.mem_cons_of_mem f hg)
    have hself : lookupEntry f led1 = some e := by
      unfold lookupEntry
      rw [if_pos rfl]
    have hfinal : lookupEntry f (run_files proc getPath s2 led1 fs).ledgerOut = some e :=
      run_files_ledger_preserve proc getPath fs s2 led1 f e hself
    rw [run_files_cons_hit proc getPath s1 (run_files proc getPath s2 led1 fs).ledgerOut f fs e hfinal]
    obtain ⟨h0, h1, h2⟩ := ih hnd' s2 led1 s1 hfresh1
    exact ⟨h0, by rw [h1], by rw [h2]⟩

/-- C5 (counterexample): even with a ledger that already lists every file,
    a non-dry-run re-run still performs a network upload — the
    `images-index.json` manifest upload at the end of the book. -/
theorem rerun_still_uploads_index :
    network_uploads
      (run_files (fun (s : Unit) (_ : String) => ((0 : Nat), s)) (fun _ => "p") ()
        (run_files (fun (s : Unit) (_ : String) => ((0 : Nat), s)) (fun _ => "p") ()
          [] ["a.jpg"]).ledgerOut
        ["a.jpg"]) ≠ 0 := by
  decide

/-- C5 (amended): re-running a book whose ledger lists every original
    filename performs zero per-file asset uploads and reproduces the same
    manifest entries and srcMap (the generation timestamp and the single
    index-manifest upload are the only differences from the first run). -/
theorem rerun_with_full_ledger (proc : S → String → E × S) (getPath : E → String)
    (s0 s1 : S) (files : List String) (hnd : files.Nodup) :
    (run_files proc getPath s1 (run_files proc getPath s0 [] files).ledgerOut files).assetUploads = 0 ∧
    (run_files proc getPath s1 (run_files proc getPath s0 [] files).ledgerOut files).entries =
      (run_files proc getPath s0 [] files).entries ∧
    (run_files proc getPath s1 (run_files proc getPath s0 [] files).ledgerOut files).srcMap =
      (run_files proc getPath s0 [] files).srcMap ∧
    network_uploads (run_files proc getPath s1 (run_files proc getPath s0 [] files).ledgerOut files) = 1 := by
  obtain ⟨h0, h1, h2⟩ := run_files_resume proc getPath files hnd s0 [] s1 (by
    intro f _
    rfl)
  exact ⟨h0, h1, h2, by unfold network_uploads; rw [h0]⟩

theorem rerun_with_full_ledger_witness :
    (run_files (fun (s : Unit) (_ : String) => ((7 : Nat), s)) (fun _ => "lib/x") ()
      (run_files (fun (s : Unit) (_ : String) => ((7 : Nat), s)) (fun _ => "lib/x") ()
        [] ["a.jpg", "b.png"]).ledgerOut
      ["a.jpg", "b.png"]).assetUploads = 0 ∧
    (run_files (fun (s : Unit) (_ : String) => ((7 : Nat), s)) (fun _ => "lib/x") ()
      (run_files (fun (s : Unit) (_ : String) => ((7 : Nat), s)) (fun _ => "lib/x") ()
        [] ["a.jpg", "b.png"]).ledgerOut
      ["a.jpg", "b.png"]).entries =
      (run_files (fun (s : Unit) (_ : String) => ((7 : Nat), s)) (fun _ => "lib/x") ()
        [] ["a.jpg", "b.png"]).entries ∧
    (run_files (fun (s : Unit) (_ : String) => ((7 : Nat), s)) (fun _ => "lib/x") ()
      (run_files (fun (s : Unit) (_ : String) => ((7 : Nat), s)) (fun _ => "lib/x") ()
        [] ["a.jpg", "b.png"]).ledgerOut
      ["a.jpg", "b.png"]).srcMap =
      (run_files (fun (s : Unit) (_ : String) => ((7 : Nat), s)) (fun _ => "lib/x") ()
        [] ["a.jpg", "b.png"]).srcMap ∧
    network_uploads
      (run_files (fun (s : Unit) (_ : String) => ((7 : Nat), s)) (fun _ => "lib/x") ()
        (run_files (fun (s : Unit) (_ : String) => ((7 : Nat), s)) (fun _ => "lib/x") ()
          [] ["a.jpg", "b.png"]).ledgerOut
        ["a.jpg", "b.png"]) = 1 :=
  rerun_with_full_ledger (fun (s : Unit) (_ : String) => ((7 : Nat), s)) (fun _ => "lib/x")
    () () ["a.jpg", "b.png"] (by decide)


/-! ### C3: the sanitizer's output character class -/

/-- C3 (code bug): the function's own docstring promises to allow only
    `[A-Za-z0-9._-]` and normalize other characters to `_`, but only the
    base is sanitized — the extension is preserved verbatim (lower-cased),
    so a space inside the extension survives into the storage object name. -/
theorem sanitizer_keeps_unsafe_extension_chars :
    safe_storage_filename "x.a b" = "x.a b" ∧
    (safe_storage_filename "x.a b").toList.all isSafeChar = false := by
  decide

/-! ### C6: idempotence of the sanitizer -/

/-- C6 (counterexample): the sanitizer is not idempotent.  On `"ab/.c"`,
    `os.path.splitext` yields no extension (the dot directly follows the
    separator), the slash becomes an underscore, and the first output is
    `"ab_.c"`; re-sanitizing re-splits at the now-valid `.c` extension and
    strips the trailing underscore, giving `"ab.c"`. -/
theorem sanitizer_not_idempotent :
    safe_storage_filename (safe_storage_filename "ab/.c") ≠ safe_storage_filename "ab/.c" := by
  decide

/-! Character-level helper lemmas for the sanitizer. -/

theorem mem_subUnsafeAux :
    ∀ (l : List Char) (b : Bool) (c : Char), c ∈ subUnsafeAux b l → isSafeChar c = true := by
  intro l
  induction l with
  | nil => intro b c h; simp [subUnsafeAux] at h
  | cons a l ih =>
    intro b c h
    by_cases hs : isSafeChar a
    · rw [show subUnsafeAux b (a :: l) = a :: subUnsafeAux false l by
        simp [subUnsafeAux, hs]] at h
      rcases List.mem_cons.mp h with h | h
      · rw [h]; exact hs
      · exact ih false c h
    · cases b with
      | true =>
        rw [show subUnsafeAux true (a :: l) = subUnsafeAux true l by
          simp [subUnsafeAux, hs]] at h
        exact ih true c h
      | false =>
        rw [show subUnsafeAux false (a :: l) = '_' :: subUnsafeAux true l by
          simp [subUnsafeAux, hs]] at h
        rcases List.mem_cons.mp h with h | h
        · rw [h]; decide
        · exact ih true c h

theorem subUnsafeAux_id :
    ∀ (l : List Char) (b : Bool), (∀ c ∈ l, isSafeChar c = true) → subUnsafeAux b l = l := by
  intro l
  induction l with
  | nil => intro b _; rfl
  | cons a l ih =>
    intro b hall
    have hs : isSafeChar a = true := hall a (List.mem_cons_self a l)
    rw [show subUnsafeAux b (a :: l) = a :: subUnsafeAux false l by simp [subUnsafeAux, hs]]
    rw [ih false (fun c hc => hall c (List.mem_cons_of_mem a hc))]

theorem mem_collapseUnd :
    ∀ (l : List Char) (b : Bool) (c : Char), c ∈ collapseUnd b l → c ∈ l := by
  intro l
  induction l with
  | nil => intro b c h; simp [collapseUnd] at h
  | cons a l ih =>
    intro b c h
    by_cases ha : a = '_'
    · cases b with
      | true =>
        rw [show collapseUnd true (a :: l) = collapseUnd true l by simp [collapseUnd, ha]] at h
        exact List.mem_cons_of_mem a (ih true c h)
      | false =>
        rw [show collapseUnd false (a :: l) = '_' :: collapseUnd true l by
          simp [collapseUnd, ha]] at h
        rcases List.mem_cons.mp h with h | h
        · rw [h, ← ha]; exact List.mem_cons_self a l
        · exact List.mem_cons_of_mem a (ih true c h)
    · rw [show collapseUnd b (a :: l) = a :: collapseUnd false l by simp [collapseUnd, ha]] at h
      rcases List.mem_cons.mp h with h | h
      · rw [h]; exact List.mem_cons_self a l
      · exact List.mem_cons_of_mem a (ih false c h)

theorem mem_dropBoth (p : Char → Bool) (l : List Char) (c : Char)
    (h : c ∈ dropBoth p l) : c ∈ l := by
  unfold dropBoth at h
  have h1 : c ∈ (l.dropWhile p).reverse.dropWhile p := List.mem_reverse.mp h
  have h2 : c ∈ (l.dropWhile p).reverse := (List.dropWhile_sublist p).subset h1
  exact (List.dropWhile_sublist p).subset (List.mem_reverse.mp h2)

theorem dropWhile_first (p : Char → Bool) :
    ∀ (l : List Char) (c : Char) (t : List Char), l.dropWhile p = c :: t → p c = false := by
  intro l
  induction l with
  | nil => intro c t h; simp [List.dropWhile] at h
  | cons a l ih =>
    intro c t h
    by_cases ha : p a
    · rw [List.dropWhile_cons_of_pos ha] at h
      exact ih c t h
    · rw [List.dropWhile_cons_of_neg ha] at h
      rw [← (List.cons.inj h).1]
      exact Bool.eq_false_iff.mpr ha

theorem dropWhile_id (p : Char → Bool) (l : List Char)
    (h : ∀ c, l.head? = some c → p c = false) : l.dropWhile p = l := by
  cases l with
  | nil => rfl
  | cons a l =>
    have := h a rfl
    simp [List.dropWhile, this]

theorem dropBoth_id (p : Char → Bool) (l : List Char)
    (hh : ∀ c, l.head? = some c → p c = false)
    (hl : ∀ c, l.getLast? = some c → p c = false) : dropBoth p l = l := by
  unfold dropBoth
  rw [dropWhile_id p l hh]
  rw [dropWhile_id p l.reverse (fun c hc => hl c (by rwa [List.head?_reverse] at hc))]
  exact List.reverse_reverse l

theorem dropBoth_prefix (p : Char → Bool) (l : List Char) :
    ∃ u, dropBoth p l = (l.dropWhile p).take u := by
  unfold dropBoth
  set X := l.dropWhile p with hX
  obtain ⟨v, hv⟩ := List.dropWhile_suffix (l := X.reverse) p
  set dw := X.reverse.dropWhile p with hdw
  refine ⟨dw.reverse.length, ?_⟩
  have hXeq : X = dw.reverse ++ v.reverse := by
    rw [← List.reverse_append, hv, List.reverse_reverse]
  rw [hXeq, List.take_left]

theorem dropBoth_head (p : Char → Bool) (l : List Char) (c : Char) (t : List Char)
    (h : dropBoth p l = c :: t) : p c = false := by
  obtain ⟨u, hu⟩ := dropBoth_prefix p l
  rw [hu] at h
  cases hdw : l.dropWhile p with
  | nil => rw [hdw] at h; simp at h
  | cons d m =>
    rw [hdw] at h
    cases u with
    | zero => simp at h
    | succ u' =>
      rw [List.take_succ_cons] at h
      rw [← (List.cons.inj h).1]
      exact dropWhile_first p l d m hdw

theorem dropBoth_last (p : Char → Bool) (l : List Char) (c : Char)
    (h : (dropBoth p l).getLast? = some c) : p c = false := by
  unfold dropBoth at h
  rw [List.getLast?_reverse] at h
  cases hdw : (l.dropWhile p).reverse.dropWhile p with
  | nil => rw [hdw] at h; simp at h
  | cons d m =>
    rw [hdw] at h
    have : d = c := by simpa using h
    rw [← this]
    exact dropWhile_first p _ d m hdw

theorem noDubB_tail (a : Char) (l : List Char) (h : noDubB (a :: l) = true) :
    noDubB l = true := by
  cases l with
  | nil => rfl
  | cons b t =>
    have h2 : (!(a = '_' && b = '_') && noDubB (b :: t)) = true := h
    rw [Bool.and_eq_true] at h2
    exact h2.2

theorem noDubB_cons (a : Char) (l : List Char) (hl : noDubB l = true)
    (hhd : a = '_' → l.head? ≠ some '_') : noDubB (a :: l) = true := by
  cases l with
  | nil => rfl
  | cons b t =>
    show (!(a = '_' && b = '_') && noDubB (b :: t)) = true
    rw [hl]
    by_cases ha : a = '_'
    · have hb : b ≠ '_' := fun hbe => hhd ha (by subst hbe; rfl)
      simp [ha, hb]
    · simp [ha]

theorem collapseUnd_head_ne :
    ∀ (l : List Char) (c : Char) (t : List Char),
      collapseUnd true l = c :: t → c ≠ '_' := by
  intro l
  induction l with
  | nil => intro c t h; simp [collapseUnd] at h
  | cons a l ih =>
    intro c t h
    by_cases ha : a = '_'
    · rw [show collapseUnd true (a :: l) = collapseUnd true l by simp [collapseUnd, ha]] at h
      exact ih c t h
    · rw [show collapseUnd true (a :: l) = a :: collapseUnd false l by
        simp [collapseUnd, ha]] at h
      rw [← (List.cons.inj h).1]
      exact ha

theorem noDubB_collapseUnd : ∀ (l : List Char) (b : Bool), noDubB (collapseUnd b l) = true := by
  intro l
  induction l with
  | nil => intro b; rfl
  | cons a l ih =>
    intro b
    by_cases ha : a = '_'
    · cases b with
      | true =>
        rw [show collapseUnd true (a :: l) = collapseUnd true l by simp [collapseUnd, ha]]
        exact ih true
      | false =>
        rw [show collapseUnd false (a :: l) = '_' :: collapseUnd true l by
          simp [collapseUnd, ha]]
        refine noDubB_cons '_' (collapseUnd true l) (ih true) (fun _ hhd => ?_)
        cases hcol : collapseUnd true l with
        | nil => rw [hcol] at hhd; simp at hhd
        | cons c t =>
          rw [hcol] at hhd
          exact collapseUnd_head_ne l c t hcol (by simpa using hhd)
    · rw [show collapseUnd b (a :: l) = a :: collapseUnd false l by simp [collapseUnd, ha]]
      refine noDubB_cons a (collapseUnd false l) (ih false) (fun haeq _ => ha haeq)

theorem noDubB_append_right :
    ∀ (l m : List Char), noDubB (l ++ m) = true → noDubB m = true := by
  intro l
  induction l with
  | nil => intro m h; exact h
  | cons a l ih => intro m h; exact ih m (noDubB_tail a (l ++ m) h)

theorem noDubB_append_left :
    ∀ (l m : List Char), noDubB (l ++ m) = true → noDubB l = true := by
  intro l
  induction l with
  | nil => intro m _; rfl
  | cons a l ih =>
    intro m h
    cases l with
    | nil => rfl
    | cons b t =>
      have hpair : (!(a = '_' && b = '_')) = true := by
        have h2 : (!(a = '_' && b = '_') && noDubB (b :: (t ++ m))) = true := h
        rw [Bool.and_eq_true] at h2
        exact h2.1
      have hrec : noDubB (b :: t) = true := ih m (noDubB_tail a ((b :: t) ++ m) h)
      show (!(a = '_' && b = '_') && noDubB (b :: t)) = true
      rw [hpair, hrec]
      rfl

theorem noDubB_dropBoth (p : Char → Bool) (l : List Char) (h : noDubB l = true) :
    noDubB (dropBoth p l) = true := by
  obtain ⟨v, hv⟩ := List.dropWhile_suffix (l := l) p
  have hdw : noDubB (l.dropWhile p) = true := noDubB_append_right v _ (by rw [hv]; exact h)
  obtain ⟨u, hu⟩ := dropBoth_prefix p l
  rw [hu]
  calc noDubB ((l.dropWhile p).take u)
      = noDubB ((l.dropWhile p).take u) := rfl
  _ = true := by
      have := noDubB_append_left ((l.dropWhile p).take u) ((l.dropWhile p).drop u)
        (by rw [List.take_append_drop]; exact hdw)
      exact this

theorem collapseUnd_id :
    ∀ (l : List Char) (b : Bool), noDubB l = true →
      (b = true → l.head? ≠ some '_') → collapseUnd b l = l := by
  intro l
  induction l with
  | nil => intro b _ _; rfl
  | cons a l ih =>
    intro b hnd hhd
    by_cases ha : a = '_'
    · cases b with
      | true => exact absurd (by simp [ha]) (hhd rfl)
      | false =>
        rw [show collapseUnd false (a :: l) = '_' :: collapseUnd true l by
          simp [collapseUnd, ha]]
        rw [ha]
        rw [ih true (noDubB_tail a l hnd) ?hd]
        case hd =>
          intro _ hl
          cases l with
          | nil => simp at hl
          | cons c t =>
            have hc : c = '_' := by simpa using hl
            have : (!(a = '_' && c = '_') && noDubB (c :: t)) = true := hnd
            rw [ha, hc] at this
            simp at this
    · rw [show collapseUnd b (a :: l) = a :: collapseUnd false l by simp [collapseUnd, ha]]
      rw [ih false (noDubB_tail a l hnd) (by intro hf; exact absurd hf (by simp))]

theorem pyLower_cases (c : Char) :
    pyLower c = c ∨ pyLower c ∈ ['a', 'b', 'c', 'd', 'e', 'f', 'g', 'h', 'i', 'j', 'k', 'l',
      'm', 'n', 'o', 'p', 'q', 'r', 's', 't', 'u', 'v', 'w', 'x', 'y', 'z'] := by
  by_cases hA : c = 'A'
  · subst hA; decide
  by_cases hB : c = 'B'
  · subst hB; decide
  by_cases hC : c = 'C'
  · subst hC; decide
  by_cases hD : c = 'D'
  · subst hD; decide
  by_cases hE : c = 'E'
  · subst hE; decide
  by_cases hF : c = 'F'
  · subst hF; decide
  by_cases hG : c = 'G'
  · subst hG; decide
  by_cases hH : c = 'H'
  · subst hH; decide
  by_cases hI : c = 'I'
  · subst hI; decide
  by_cases hJ : c = 'J'
  · subst hJ; decide
  by_cases hK : c = 'K'
  · subst hK; decide
  by_cases hL : c = 'L'
  · subst hL; decide
  by_cases hM : c = 'M'
  · subst hM; decide
  by_cases hN : c = 'N'
  · subst hN; decide
  by_cases hO : c = 'O'
  · subst hO; decide
  by_cases hP : c = 'P'
  · subst hP; decide
  by_cases hQ : c = 'Q'
  · subst hQ; decide
  by_cases hR : c = 'R'
  · subst hR; decide
  by_cases hS : c = 'S'
  · subst hS; decide
  by_cases hT : c = 'T'
  · subst hT; decide
  by_cases hU : c = 'U'
  · subst hU; decide
  by_cases hV : c = 'V'
  · subst hV; decide
  by_cases hW : c = 'W'
  · subst hW; decide
  by_cases hX : c = 'X'
  · subst hX; decide
  by_cases hY : c = 'Y'
  · subst hY; decide
  by_cases hZ : c = 'Z'
  · subst hZ; decide
  left
  unfold pyLower
  rw [if_neg hA, if_neg hB, if_neg hC, if_neg hD, if_neg hE, if_neg hF, if_neg hG, if_neg hH, if_neg hI, if_neg hJ, if_neg hK, if_neg hL, if_neg hM, if_neg hN, if_neg hO, if_neg hP, if_neg hQ, if_neg hR, if_neg hS, if_neg hT, if_neg hU, if_neg hV, if_neg hW, if_neg hX, if_neg hY, if_neg hZ]
theorem lower_letter_fixed (d : Char)
    (hd : d ∈ ['a', 'b', 'c', 'd', 'e', 'f', 'g', 'h', 'i', 'j', 'k', 'l',
      'm', 'n', 'o', 'p', 'q', 'r', 's', 't', 'u', 'v', 'w', 'x', 'y', 'z']) :
    pyLower d = d := by
  fin_cases hd <;> decide

theorem lower_letter_ne_dot (d : Char)
    (hd : d ∈ ['a', 'b', 'c', 'd', 'e', 'f', 'g', 'h', 'i', 'j', 'k', 'l',
      'm', 'n', 'o', 'p', 'q', 'r', 's', 't', 'u', 'v', 'w', 'x', 'y', 'z']) :
    d ≠ '.' := by
  fin_cases hd <;> decide

theorem lower_letter_ne_slash (d : Char)
    (hd : d ∈ ['a', 'b', 'c', 'd', 'e', 'f', 'g', 'h', 'i', 'j', 'k', 'l',
      'm', 'n', 'o', 'p', 'q', 'r', 's', 't', 'u', 'v', 'w', 'x', 'y', 'z']) :
    d ≠ '/' := by
  fin_cases hd <;> decide

theorem lower_letter_not_space (d : Char)
    (hd : d ∈ ['a', 'b', 'c', 'd', 'e', 'f', 'g', 'h', 'i', 'j', 'k', 'l',
      'm', 'n', 'o', 'p', 'q', 'r', 's', 't', 'u', 'v', 'w', 'x', 'y', 'z']) :
    pyIsSpace d = false := by
  fin_cases hd <;> decide

theorem pyLower_idem (c : Char) : pyLower (pyLower c) = pyLower c := by
  rcases pyLower_cases c with h | h
  · rw [h, h]
  · exact lower_letter_fixed _ h

theorem pyLower_ne_dot (c : Char) (h : c ≠ '.') : pyLower c ≠ '.' := by
  rcases pyLower_cases c with hc | hc
  · rw [hc]; exact h
  · exact lower_letter_ne_dot _ hc

theorem pyLower_ne_slash (c : Char) (h : c ≠ '/') : pyLower c ≠ '/' := by
  rcases pyLower_cases c with hc | hc
  · rw [hc]; exact h
  · exact lower_letter_ne_slash _ hc

theorem pyLower_not_space (c : Char) (h : pyIsSpace c = false) :
    pyIsSpace (pyLower c) = false := by
  rcases pyLower_cases c with hc | hc
  · rw [hc]; exact h
  · exact lower_letter_not_space _ hc

theorem safeChar_not_space (c : Char) (h : isSafeChar c = true) : pyIsSpace c = false := by
  by_contra hsp
  have hsp' : pyIsSpace c = true := by
    cases hb : pyIsSpace c
    · exact absurd hb hsp
    · rfl
  have hor : ((((c = ' ' ∨ c = '\t') ∨ c = '\n') ∨ c = '\x0d') ∨ c = '\x0b') ∨ c = '\x0c' := by
    simpa [pyIsSpace] using hsp'
  rcases hor with ((((h' | h') | h') | h') | h') | h' <;> rw [h'] at h <;>
    exact absurd h (by decide)

theorem stripChar_ne (c : Char) (h : isStripChar c = false) :
    c ≠ '.' ∧ c ≠ '_' ∧ c ≠ '-' := by
  refine ⟨fun he => ?_, fun he => ?_, fun he => ?_⟩ <;> rw [he] at h <;> exact absurd h (by decide)

theorem safeChar_ne_slash (c : Char) (h : isSafeChar c = true) : c ≠ '/' := by
  intro he
  rw [he] at h
  exact absurd h (by decide)

/-! `pyRfind` structure lemmas. -/

theorem pyRfind_ge_neg_one : ∀ (l : List Char) (c : Char), -1 ≤ pyRfind l c := by
  intro l
  induction l with
  | nil => intro c; simp [pyRfind]
  | cons a l ih =>
    intro c
    have h := ih c
    unfold pyRfind
    split_ifs <;> omega

theorem pyRfind_not_mem : ∀ (l : List Char) (c : Char), c ∉ l → pyRfind l c = -1 := by
  intro l
  induction l with
  | nil => intro c _; rfl
  | cons a l ih =>
    intro c hc
    have hca : a ≠ c := fun h => hc (h ▸ List.mem_cons_self a l)
    have hl : c ∉ l := fun h => hc (List.mem_cons_of_mem a h)
    unfold pyRfind
    rw [ih c hl]
    simp [hca]

theorem pyRfind_mem_nonneg : ∀ (l : List Char) (c : Char), c ∈ l → 0 ≤ pyRfind l c := by
  intro l
  induction l with
  | nil => intro c h; simp at h
  | cons a l ih =>
    intro c hmem
    unfold pyRfind
    rcases List.mem_cons.mp hmem with h | h
    · split_ifs with h1 h2
      · have := pyRfind_ge_neg_one l c; omega
      · omega
      · exact absurd h.symm h2
    · have := ih c h
      split_ifs <;> omega

theorem pyRfind_mem_structure :
    ∀ (l : List Char) (c : Char), 0 ≤ pyRfind l c →
      ∃ l₁ l₂, l = l₁ ++ c :: l₂ ∧ pyRfind l c = l₁.length ∧ c ∉ l₂ := by
  intro l
  induction l with
  | nil => intro c h; simp [pyRfind] at h
  | cons a l ih =>
    intro c h
    by_cases hr : 0 ≤ pyRfind l c
    · obtain ⟨l₁, l₂, he, hlen, hnm⟩ := ih c hr
      refine ⟨a :: l₁, l₂, by rw [he]; rfl, ?_, hnm⟩
      unfold pyRfind
      rw [if_pos hr, hlen]
      simp
    · by_cases hac : a = c
      · refine ⟨[], l, by rw [hac]; rfl, ?_, fun hm => hr (pyRfind_mem_nonneg l c hm)⟩
        unfold pyRfind
        rw [if_neg hr, if_pos hac]
        rfl
      · exfalso
        unfold pyRfind at h
        rw [if_neg hr, if_neg hac] at h
        omega

theorem pyRfind_last_occurrence :
    ∀ (l₁ l₂ : List Char) (c : Char), c ∉ l₂ →
      pyRfind (l₁ ++ c :: l₂) c = l₁.length := by
  intro l₁
  induction l₁ with
  | nil =>
    intro l₂ c hc
    show pyRfind (c :: l₂) c = 0
    unfold pyRfind
    rw [pyRfind_not_mem l₂ c hc]
    simp
  | cons a l₁ ih =>
    intro l₂ c hc
    show pyRfind (a :: (l₁ ++ c :: l₂)) c = _
    unfold pyRfind
    rw [ih l₂ c hc]
    rw [if_pos (Int.natCast_nonneg l₁.length)]
    simp

/-! `pySplitext` structure lemmas. -/

theorem pySplitext_structure (p : List Char) :
    ((pySplitext p).2 = [] ∧ (pySplitext p).1 = p) ∨
    (∃ et, (pySplitext p).2 = '.' :: et ∧ '.' ∉ et ∧ (pySplitext p).1 ++ '.' :: et = p) := by
  unfold pySplitext
  split_ifs with h1 h2
  · right
    have hd0 : 0 ≤ pyRfind p '.' := by
      have := pyRfind_ge_neg_one p '/'
      omega
    obtain ⟨l₁, l₂, he, hlen, hnm⟩ := pyRfind_mem_structure p '.' hd0
    refine ⟨l₂, ?_, hnm, ?_⟩
    · show p.drop (pyRfind p '.').toNat = '.' :: l₂
      rw [hlen, Int.toNat_natCast]
      conv_lhs => rw [he]
      exact List.drop_left l₁ ('.' :: l₂)
    · show p.take (pyRfind p '.').toNat ++ '.' :: l₂ = p
      rw [hlen, Int.toNat_natCast]
      conv_lhs => rw [he, List.take_left]
      rw [he]
  · left; exact ⟨rfl, rfl⟩
  · left; exact ⟨rfl, rfl⟩

theorem pySplitext_no_dot (p : List Char) (hdot : '.' ∉ p) : pySplitext p = (p, []) := by
  unfold pySplitext
  rw [pyRfind_not_mem p '.' hdot]
  have := pyRfind_ge_neg_one p '/'
  rw [if_neg (by omega)]

theorem pySplitext_append_ext (sb et : List Char) (hsb : sb ≠ [])
    (hhd : ∀ c t, sb = c :: t → c ≠ '.')
    (hsl : '/' ∉ sb) (hsl2 : '/' ∉ et) (het : '.' ∉ et) :
    pySplitext (sb ++ '.' :: et) = (sb, '.' :: et) := by
  have hslash : '/' ∉ sb ++ '.' :: et := by
    intro hm
    rcases List.mem_append.mp hm with hm | hm
    · exact hsl hm
    · rcases List.mem_cons.mp hm with hm | hm
      · exact absurd hm (by decide)
      · exact hsl2 hm
  have hsep : pyRfind (sb ++ '.' :: et) '/' = -1 := pyRfind_not_mem _ _ hslash
  have hdot : pyRfind (sb ++ '.' :: et) '.' = sb.length := pyRfind_last_occurrence sb et '.' het
  unfold pySplitext
  rw [hsep, hdot]
  rw [if_pos (by have := Int.natCast_nonneg sb.length; omega)]
  have hz : ((-1 : Int) + 1).toNat = 0 := rfl
  rw [hz, Int.toNat_natCast, List.drop_zero, Nat.sub_zero, List.take_left]
  rw [if_pos ?hany]
  case hany =>
    cases sb with
    | nil => exact absurd rfl hsb
    | cons c t =>
      rw [List.any_cons]
      have hc : (c != '.') = true := by
        have := hhd c t rfl
        simp [this]
      rw [hc]
      rfl
  rw [List.drop_left]

theorem pyRfind_neg_not_mem (l : List Char) (c : Char) (h : pyRfind l c < 0) : c ∉ l :=
  fun hm => absurd (pyRfind_mem_nonneg l c hm) (by omega)

theorem dropWhile_replicate (p : Char → Bool) (a : Char) (hp : p a = true) :
    ∀ (k : Nat) (rest : List Char),
      (List.replicate k a ++ rest).dropWhile p = rest.dropWhile p := by
  intro k
  induction k with
  | zero => intro rest; rfl
  | succ n ih =>
    intro rest
    rw [List.replicate_succ, List.cons_append, List.dropWhile_cons_of_pos hp]
    exact ih rest

theorem subUnsafeAux_dots :
    ∀ (k : Nat) (rest : List Char) (b : Bool), ∃ b',
      subUnsafeAux b (List.replicate k '.' ++ rest) =
        List.replicate k '.' ++ subUnsafeAux b' rest := by
  intro k
  induction k with
  | zero => intro rest b; exact ⟨b, rfl⟩
  | succ n ih =>
    intro rest b
    obtain ⟨b', hb'⟩ := ih rest false
    refine ⟨b', ?_⟩
    rw [List.replicate_succ, List.cons_append, List.cons_append]
    rw [show subUnsafeAux b ('.' :: (List.replicate n '.' ++ rest)) =
      '.' :: subUnsafeAux false (List.replicate n '.' ++ rest) by
        simp [subUnsafeAux, show isSafeChar '.' = true from by decide]]
    rw [hb']

theorem collapseUnd_dots :
    ∀ (k : Nat) (rest : List Char) (b : Bool), ∃ b',
      collapseUnd b (List.replicate k '.' ++ rest) =
        List.replicate k '.' ++ collapseUnd b' rest := by
  intro k
  induction k with
  | zero => intro rest b; exact ⟨b, rfl⟩
  | succ n ih =>
    intro rest b
    obtain ⟨b', hb'⟩ := ih rest false
    refine ⟨b', ?_⟩
    rw [List.replicate_succ, List.cons_append, List.cons_append]
    rw [show collapseUnd b ('.' :: (List.replicate n '.' ++ rest)) =
      '.' :: collapseUnd false (List.replicate n '.' ++ rest) by
        simp [collapseUnd, show ('.' : Char) ≠ '_' from by decide]]
    rw [hb']

theorem not_dot_subUnsafeAux :
    ∀ (l : List Char) (b : Bool), '.' ∉ l → '.' ∉ subUnsafeAux b l := by
  intro l
  induction l with
  | nil => intro b _; simp [subUnsafeAux]
  | cons a l ih =>
    intro b hl
    have ha : a ≠ '.' := fun h => hl (h ▸ List.mem_cons_self a l)
    have hl' : '.' ∉ l := fun h => hl (List.mem_cons_of_mem a h)
    by_cases hs : isSafeChar a
    · rw [show subUnsafeAux b (a :: l) = a :: subUnsafeAux false l by simp [subUnsafeAux, hs]]
      intro hm
      rcases List.mem_cons.mp hm with hm | hm
      · exact ha hm.symm
      · exact ih false hl' hm
    · cases b with
      | true =>
        rw [show subUnsafeAux true (a :: l) = subUnsafeAux true l by simp [subUnsafeAux, hs]]
        exact ih true hl'
      | false =>
        rw [show subUnsafeAux false (a :: l) = '_' :: subUnsafeAux true l by
          simp [subUnsafeAux, hs]]
        intro hm
        rcases List.mem_cons.mp hm with hm | hm
        · exact absurd hm (by decide)
        · exact ih true hl' hm

theorem mem_dropBoth_dropWhile (p : Char → Bool) (l : List Char) (c : Char)
    (h : c ∈ dropBoth p l) : c ∈ l.dropWhile p := by
  obtain ⟨u, hu⟩ := dropBoth_prefix p l
  rw [hu] at h
  exact List.take_subset u _ h

theorem pySplitext_no_ext_dots (p : List Char) (hsl : '/' ∉ p)
    (hext : (pySplitext p).2 = []) :
    ∃ k tail, p = List.replicate k '.' ++ tail ∧ '.' ∉ tail := by
  have hsep : pyRfind p '/' = -1 := pyRfind_not_mem p '/' hsl
  unfold pySplitext at hext
  split_ifs at hext with h1 h2
  · exfalso
    have hd0 : 0 ≤ pyRfind p '.' := by omega
    obtain ⟨l₁, l₂, he, hlen, hnm⟩ := pyRfind_mem_structure p '.' hd0
    have : p.drop (pyRfind p '.').toNat = '.' :: l₂ := by
      rw [hlen, Int.toNat_natCast]
      conv_lhs => rw [he]
      exact List.drop_left l₁ ('.' :: l₂)
    rw [this] at hext
    exact List.cons_ne_nil _ _ hext
  · have hd0 : 0 ≤ pyRfind p '.' := by omega
    obtain ⟨l₁, l₂, he, hlen, hnm⟩ := pyRfind_mem_structure p '.' hd0
    have htake : (p.drop (pyRfind p '/' + 1).toNat).take
        ((pyRfind p '.').toNat - (pyRfind p '/' + 1).toNat) = l₁ := by
      rw [hsep, hlen]
      have hz : ((-1 : Int) + 1).toNat = 0 := rfl
      rw [hz, Int.toNat_natCast, List.drop_zero, Nat.sub_zero]
      conv_lhs => rw [he]
      exact List.take_left l₁ ('.' :: l₂)
    have hall : ∀ c ∈ l₁, c = '.' := by
      intro c hc
      by_contra hne
      apply h2
      rw [htake]
      rw [List.any_eq_true]
      exact ⟨c, hc, by simp [hne]⟩
    have hrep : l₁ = List.replicate l₁.length '.' := List.eq_replicate_of_mem hall
    refine ⟨l₁.length + 1, l₂, ?_, hnm⟩
    rw [he]
    conv_lhs => rw [hrep]
    rw [List.replicate_succ', List.append_assoc]
    rfl
  · refine ⟨0, p, rfl, ?_⟩
    exact pyRfind_neg_not_mem p '.' (by omega)

/-! First-application invariants of `sanBase`, `rawChars`, `extChars`. -/

theorem file_toList : "file".toList = ['f', 'i', 'l', 'e'] := rfl

theorem mem_sanBase_safe (n : List Char) : ∀ c ∈ sanBase n, isSafeChar c = true := by
  intro c hc
  unfold sanBase at hc
  split_ifs at hc with h
  · rw [file_toList] at hc
    fin_cases hc <;> decide
  · exact mem_subUnsafeAux _ _ c (mem_collapseUnd _ _ c (mem_dropBoth _ _ c hc))

theorem noDubB_sanBase (n : List Char) : noDubB (sanBase n) = true := by
  unfold sanBase
  split_ifs with h
  · rw [file_toList]; decide
  · exact noDubB_dropBoth _ _ (noDubB_collapseUnd _ false)

theorem sanBase_ne_nil (n : List Char) : sanBase n ≠ [] := by
  unfold sanBase
  split_ifs with h
  · rw [file_toList]; decide
  · exact h

theorem sanBase_head_not_strip (n : List Char) :
    ∀ c t, sanBase n = c :: t → isStripChar c = false := by
  intro c t hc
  unfold sanBase at hc
  split_ifs at hc with h
  · rw [file_toList] at hc
    rw [← (List.cons.inj hc).1]
    decide
  · exact dropBoth_head isStripChar _ c t hc

theorem sanBase_last_not_strip (n : List Char) :
    ∀ c, (sanBase n).getLast? = some c → isStripChar c = false := by
  intro c hc
  unfold sanBase at hc
  split_ifs at hc with h
  · rw [file_toList] at hc
    have : 'e' = c := by simpa using hc
    rw [← this]
    decide
  · exact dropBoth_last isStripChar _ c hc

theorem rawChars_no_slash (n : List Char) (h : '/' ∉ n) : '/' ∉ rawChars n := by
  unfold rawChars
  split_ifs with hs
  · rw [file_toList]; decide
  · intro hm
    exact h (mem_dropBoth pyIsSpace n '/' hm)

theorem rawChars_last_not_space (n : List Char) :
    ∀ c, (rawChars n).getLast? = some c → pyIsSpace c = false := by
  intro c hc
  unfold rawChars at hc
  split_ifs at hc with hs
  · rw [file_toList] at hc
    have : 'e' = c := by simpa using hc
    rw [← this]
    decide
  · exact dropBoth_last pyIsSpace n c hc

theorem sanBase_no_dot_of_no_ext (n : List Char) (hsl : '/' ∉ rawChars n)
    (hext : (pySplitext (rawChars n)).2 = []) : '.' ∉ sanBase n := by
  rcases pySplitext_structure (rawChars n) with ⟨hext2, hbase⟩ | ⟨et, hext2, _, _⟩
  · obtain ⟨k, tail, hp, htail⟩ := pySplitext_no_ext_dots (rawChars n) hsl hext
    unfold sanBase
    split_ifs with h
    · rw [file_toList]; decide
    · intro hm
      rw [hbase, hp] at hm
      obtain ⟨b1, hsub⟩ := subUnsafeAux_dots k tail false
      rw [hsub] at hm
      obtain ⟨b2, hcol⟩ := collapseUnd_dots k (subUnsafeAux b1 tail) false
      rw [hcol] at hm
      have h3 := mem_dropBoth_dropWhile isStripChar _ '.' hm
      rw [dropWhile_replicate isStripChar '.' (by decide) k] at h3
      have h4 : '.' ∈ collapseUnd b2 (subUnsafeAux b1 tail) :=
        (List.dropWhile_sublist _).subset h3
      exact not_dot_subUnsafeAux tail b1 htail (mem_collapseUnd _ _ _ h4)
  · rw [hext2] at hext
    exact absurd hext (by simp)

theorem map_pyLower_idem (l : List Char) : (l.map pyLower).map pyLower = l.map pyLower := by
  rw [List.map_map]
  apply List.map_congr_left
  intro c _
  exact pyLower_idem c

/-- C6 (amended): the sanitizer is idempotent on every input that contains
    no path separator `/` and whose sanitized base fits the length budget
    (so the hash-suffix truncation branch is not taken); inputs with
    separators, or long enough to truncate, need not be fixed points. -/
theorem sanitizer_idempotent_no_slash (name : String) (maxLen : Nat)
    (hslash : '/' ∉ name.toList)
    (hfit : (sanBase name.toList).length ≤ maxBaseLen name.toList maxLen) :
    safe_storage_filename (safe_storage_filename name maxLen) maxLen =
      safe_storage_filename name maxLen := by
  have hout : safe_storage_filename name maxLen =
      String.mk (sanBase name.toList ++ extChars name.toList) := by
    unfold safe_storage_filename
    rw [if_neg (by omega)]
  rw [hout]
  set n := name.toList with hn
  set sb := sanBase n with hsbdef
  set e := extChars n with hedef
  have hsbne : sb ≠ [] := sanBase_ne_nil n
  have hsafe : ∀ c ∈ sb, isSafeChar c = true := mem_sanBase_safe n
  have hnodub : noDubB sb = true := noDubB_sanBase n
  have hraw_slash : '/' ∉ rawChars n := rawChars_no_slash n hslash
  obtain ⟨c0, t0, hsb0⟩ : ∃ c t, sb = c :: t := by
    cases hx : sb with
    | nil => exact absurd hx hsbne
    | cons c t => exact ⟨c, t, rfl⟩
  have hhead_strip : isStripChar c0 = false := sanBase_head_not_strip n c0 t0 hsb0
  have hc0_safe : isSafeChar c0 = true := hsafe c0 (by rw [hsb0]; exact List.mem_cons_self c0 t0)
  have hc0_ne_dot : c0 ≠ '.' := (stripChar_ne c0 hhead_strip).1
  have hnoslash_sb : '/' ∉ sb := fun hm => safeChar_ne_slash '/' (hsafe '/' hm) rfl
  have hsplit2 : pySplitext (sb ++ e) = (sb, e) := by
    rcases pySplitext_structure (rawChars n) with ⟨hext0, hbase0⟩ | ⟨et0, hext0, hdot0, hcat0⟩
    · have he_nil : e = [] := by
        rw [hedef]
        unfold extChars
        rw [hext0]
        rfl
      have hnodot : '.' ∉ sb := by
        rw [hsbdef]
        exact sanBase_no_dot_of_no_ext n hraw_slash hext0
      rw [he_nil, List.append_nil]
      exact pySplitext_no_dot sb hnodot
    · have he_eq : e = '.' :: et0.map pyLower := by
        rw [hedef]
        unfold extChars
        rw [hext0, List.map_cons]
        congr 1
      have hslash_e : '/' ∉ et0.map pyLower := by
        intro hm
        obtain ⟨d, hd, hde⟩ := List.mem_map.mp hm
        have hd_raw : d ∈ rawChars n := by
          rw [← hcat0]
          exact List.mem_append.mpr (Or.inr (List.mem_cons_of_mem _ hd))
        exact pyLower_ne_slash d (fun hde2 => hraw_slash (hde2 ▸ hd_raw)) hde
      have hdot_e : '.' ∉ et0.map pyLower := by
        intro hm
        obtain ⟨d, hd, hde⟩ := List.mem_map.mp hm
        exact pyLower_ne_dot d (fun h2 => hdot0 (h2 ▸ hd)) hde
      rw [he_eq]
      exact pySplitext_append_ext sb (et0.map pyLower) hsbne
        (fun c t hct => by
          rw [hsb0] at hct
          rw [(List.cons.inj hct.symm).1]
          exact hc0_ne_dot)
        hnoslash_sb hslash_e hdot_e
  have hfirst : ∀ c, (sb ++ e).head? = some c → pyIsSpace c = false := by
    intro c hc
    rw [hsb0] at hc
    have hcc : c0 = c := by simpa using hc
    rw [← hcc]
    exact safeChar_not_space c0 hc0_safe
  have hlast : ∀ c, (sb ++ e).getLast? = some c → pyIsSpace c = false := by
    intro c hc
    rcases pySplitext_structure (rawChars n) with ⟨hext0, hbase0⟩ | ⟨et0, hext0, hdot0, hcat0⟩
    · have he_nil : e = [] := by
        rw [hedef]
        unfold extChars
        rw [hext0]
        rfl
      rw [he_nil, List.append_nil] at hc
      exact safeChar_not_space c (hsafe c (List.mem_of_getLast?_eq_some hc))
    · have he_eq : e = ('.' :: et0).map pyLower := by
        rw [hedef]
        unfold extChars
        rw [hext0]
      obtain ⟨d, hd⟩ : ∃ d, ('.' :: et0).getLast? = some d :=
        ⟨('.' :: et0).getLast (List.cons_ne_nil _ _),
         List.getLast?_eq_getLast _ (List.cons_ne_nil _ _)⟩
      have hel : e.getLast? = some (pyLower d) := by
        rw [he_eq, List.getLast?_map, hd]
        rfl
      rw [List.getLast?_append, hel, Option.or_some] at hc
      have hcd : pyLower d = c := by simpa using hc
      have hdraw : (rawChars n).getLast? = some d := by
        rw [← hcat0, List.getLast?_append, hd, Option.or_some]
      rw [← hcd]
      exact pyLower_not_space d (rawChars_last_not_space n d hdraw)
  have hstrip : pyStrip (sb ++ e) = sb ++ e :=
    dropBoth_id pyIsSpace (sb ++ e) hfirst hlast
  have hraw2 : rawChars (sb ++ e) = sb ++ e := by
    unfold rawChars
    rw [hstrip]
    rw [if_neg (by rw [hsb0]; simp)]
  have hsub2 : subUnsafeAux false sb = sb := subUnsafeAux_id sb false hsafe
  have hcol2 : collapseUnd false sb = sb :=
    collapseUnd_id sb false hnodub (fun h => absurd h (by simp))
  have hstrip2 : stripSep sb = sb :=
    dropBoth_id isStripChar sb
      (fun c hc => by
        rw [hsb0] at hc
        have hcc : c0 = c := by simpa using hc
        rw [← hcc]
        exact hhead_strip)
      (fun c hc => sanBase_last_not_strip n c (by rw [← hsbdef]; exact hc))
  have hsan2 : sanBase (sb ++ e) = sb := by
    unfold sanBase
    rw [hraw2, hsplit2]
    dsimp only
    rw [hsub2, hcol2, hstrip2]
    rw [if_neg hsbne]
  have hext2 : extChars (sb ++ e) = e := by
    unfold extChars
    rw [hraw2, hsplit2]
    dsimp only
    rw [hedef]
    unfold extChars
    exact map_pyLower_idem _
  have hmb2 : maxBaseLen (sb ++ e) maxLen = maxBaseLen n maxLen := by
    unfold maxBaseLen
    rw [hext2]
  have htl : (String.mk (sb ++ e)).toList = sb ++ e := rfl
  unfold safe_storage_filename
  rw [htl, hsan2, hext2, hmb2]
  rw [if_neg (by omega)]

theorem sanitizer_idempotent_witness :
    '/' ∉ ("My Photo.JPG").toList ∧
    (sanBase ("My Photo.JPG").toList).length ≤ maxBaseLen ("My Photo.JPG").toList 180 ∧
    safe_storage_filename (safe_storage_filename "My Photo.JPG" 180) 180 =
      safe_storage_filename "My Photo.JPG" 180 :=
  ⟨by decide, by decide,
   sanitizer_idempotent_no_slash "My Photo.JPG" 180 (by decide) (by decide)⟩
